import Mathlib

/-!
Verification of the ProAct.js reactive core against its specification.

The development shallowly embeds the code of the repository:
`src/unnamed/part_000` (the `ProAct.Array` prototype), `src/src/js/properties/property.js`
(`ProAct.Property`) and `src/src/js/streams/stream.js` (`ProAct.Stream`).
The Flow/Queue scheduler, the `ProAct.Actor`/`Observable` base, the `ObjectCore`
and `P.U.diff` are not part of the sources; where a claim depends on them they
are modelled from the specification text, and each such definition says so in
its doc comment.
-/

/- ## Queue / Flow (push-once) model -/

/-- Pending invocation in a flow queue: the identity of the listener (the
push-once key) together with the arguments it is to be invoked with. -/
structure QEntry (α : Type) where
  lid : Nat
  args : α
deriving DecidableEq, Repr

/-- Modelled from the spec: `Queue.pushOnce` / `P.flow.pushOnce` (queue.js and
flow.js are not under src/).  Spec 4.1: append only if no pending entry in the
queue already targets the same invocation (identity-based); otherwise the
pending entry's arguments are updated in place, its position unchanged, so the
last enqueued arguments win. -/
def pushOnce {α : Type} : List (QEntry α) → Nat → α → List (QEntry α)
  | [], l, a => [⟨l, a⟩]
  | e :: q, l, a => if e.lid = l then { e with args := a } :: q else e :: pushOnce q l a

/-- Modelled from the spec: `Queue.go`/flush (queue.js is not under src/).
Spec 4.1: flush executes the pending entries strictly in enqueue order, each
exactly once; the result is the list of invocations performed. -/
def flush {α : Type} (q : List (QEntry α)) : List (QEntry α) := q

/-- Number of pending entries in the queue that target listener `l`. -/
def countFor {α : Type} (q : List (QEntry α)) (l : Nat) : Nat :=
  (q.filter (fun e => e.lid == l)).length

/-- Arguments of the last pending entry targeting listener `l`, if any. -/
def lastArgsFor {α : Type} (q : List (QEntry α)) (l : Nat) : Option α :=
  ((q.filter (fun e => e.lid == l)).getLast?).map (fun e => e.args)

/-- Deferral loop of `ProAct.Array.prototype.willUpdateListeners`
(src/unnamed/part_000 lines 76-93): every listener of the list is deferred to
the flow with push-once semantics, keyed by the listener's identity, carrying
the freshly made event as its arguments.  The optional direct
`listener.property.update` cascade re-enters through that property's own
update and adds no entry for the listener itself in this queue. -/
def willUpdateListeners {α : Type} (q : List (QEntry α)) (listeners : List Nat) (event : α) :
    List (QEntry α) :=
  listeners.foldl (fun acc l => pushOnce acc l event) q

/-- Repeated enqueue of the same listener with successive argument payloads,
as happens when one update cycle reaches the listener along several paths. -/
def pushSeq {α : Type} (q : List (QEntry α)) (l : Nat) (as : List α) : List (QEntry α) :=
  as.foldl (fun acc a => pushOnce acc l a) q

lemma countFor_nil {α : Type} (l : Nat) : countFor ([] : List (QEntry α)) l = 0 := rfl

lemma countFor_cons {α : Type} (e : QEntry α) (q : List (QEntry α)) (l : Nat) :
    countFor (e :: q) l = (if e.lid = l then 1 else 0) + countFor q l := by
  by_cases h : e.lid = l
  · simp [countFor, List.filter_cons, h]
    omega
  · simp [countFor, List.filter_cons, h]

lemma countFor_pushOnce_self {α : Type} (q : List (QEntry α)) (l : Nat) (a : α) :
    countFor (pushOnce q l a) l = max (countFor q l) 1 := by
  induction q with
  | nil => simp [pushOnce, countFor]
  | cons e q ih =>
    by_cases h : e.lid = l
    · simp [pushOnce, h, countFor_cons]
    · simp [pushOnce, h, countFor_cons, ih]

lemma countFor_pushOnce_other {α : Type} (q : List (QEntry α)) (l l' : Nat) (a : α)
    (h : l' ≠ l) : countFor (pushOnce q l' a) l = countFor q l := by
  induction q with
  | nil => simp [pushOnce, countFor_cons, countFor_nil, h]
  | cons e q ih =>
    by_cases he : e.lid = l'
    · have hne : e.lid ≠ l := by rw [he]; exact h
      simp [pushOnce, he, countFor_cons, hne]
    · simp [pushOnce, he, countFor_cons, ih]

lemma countFor_eq_zero_filter {α : Type} (q : List (QEntry α)) (l : Nat)
    (h : countFor q l = 0) : q.filter (fun e => e.lid == l) = [] :=
  List.length_eq_zero.mp h

lemma lastArgsFor_pushOnce_self {α : Type} (q : List (QEntry α)) (l : Nat) (a : α)
    (h : countFor q l ≤ 1) : lastArgsFor (pushOnce q l a) l = some a := by
  induction q with
  | nil => simp [pushOnce, lastArgsFor]
  | cons e q ih =>
    by_cases he : e.lid = l
    · have hq : countFor q l = 0 := by
        have := countFor_cons e q l
        simp [he] at this
        omega
      have hfil := countFor_eq_zero_filter q l hq
      simp [pushOnce, he, lastArgsFor, List.filter_cons, hfil]
    · have hq : countFor q l ≤ 1 := by
        have := countFor_cons e q l
        simp [he] at this
        omega
      simp [pushOnce, he, lastArgsFor, List.filter_cons] at ih ⊢
      exact ih hq

lemma countFor_pushSeq {α : Type} (q : List (QEntry α)) (l : Nat) (as : List α)
    (h : countFor q l ≤ 1) (hne : as ≠ []) : countFor (pushSeq q l as) l = 1 := by
  induction as generalizing q with
  | nil => exact absurd rfl hne
  | cons a as ih =>
    rcases as with _ | ⟨b, bs⟩
    · simp [pushSeq, countFor_pushOnce_self]
      omega
    · have hstep : countFor (pushOnce q l a) l ≤ 1 := by
        rw [countFor_pushOnce_self]
        omega
      have : pushSeq q l (a :: b :: bs) = pushSeq (pushOnce q l a) l (b :: bs) := rfl
      rw [this]
      exact ih (pushOnce q l a) hstep (by simp)

lemma lastArgsFor_pushSeq {α : Type} (q : List (QEntry α)) (l : Nat) (as : List α)
    (h : countFor q l ≤ 1) (hne : as ≠ []) :
    lastArgsFor (pushSeq q l as) l = as.getLast? := by
  induction as generalizing q with
  | nil => exact absurd rfl hne
  | cons a as ih =>
    rcases as with _ | ⟨b, bs⟩
    · simpa [pushSeq] using lastArgsFor_pushOnce_self q l a h
    · have hstep : countFor (pushOnce q l a) l ≤ 1 := by
        rw [countFor_pushOnce_self]
        omega
      have heq : pushSeq q l (a :: b :: bs) = pushSeq (pushOnce q l a) l (b :: bs) := rfl
      rw [heq, ih (pushOnce q l a) hstep (by simp), List.getLast?_cons_cons]

lemma countFor_willUpdateListeners_notMem {α : Type} (q : List (QEntry α))
    (listeners : List Nat) (ev : α) (l : Nat) (h : l ∉ listeners) :
    countFor (willUpdateListeners q listeners ev) l = countFor q l := by
  induction listeners generalizing q with
  | nil => rfl
  | cons l' rest ih =>
    have hne : l' ≠ l := fun hc => h (hc ▸ List.mem_cons_self l' rest)
    have hrest : l ∉ rest := fun hc => h (List.mem_cons_of_mem l' hc)
    have heq : willUpdateListeners q (l' :: rest) ev
        = willUpdateListeners (pushOnce q l' ev) rest ev := rfl
    rw [heq, ih (pushOnce q l' ev) hrest, countFor_pushOnce_other q l l' ev hne]

lemma countFor_willUpdateListeners_mem {α : Type} (q : List (QEntry α))
    (listeners : List Nat) (ev : α) (l : Nat) (h : countFor q l ≤ 1)
    (hm : l ∈ listeners) : countFor (willUpdateListeners q listeners ev) l = 1 := by
  induction listeners generalizing q with
  | nil => cases hm
  | cons l' rest ih =>
    have heq : willUpdateListeners q (l' :: rest) ev
        = willUpdateListeners (pushOnce q l' ev) rest ev := rfl
    by_cases hl : l' = l
    · subst hl
      have hone : countFor (pushOnce q l' ev) l' = 1 := by
        rw [countFor_pushOnce_self]
        omega
      by_cases hr : l' ∈ rest
      · exact heq ▸ ih (pushOnce q l' ev) (by omega) hr
      · rw [heq, countFor_willUpdateListeners_notMem _ rest ev l' hr, hone]
    · have hr : l ∈ rest := by
        rcases List.mem_cons.mp hm with h1 | h1
        · exact absurd h1.symm hl
        · exact h1
      have hpres : countFor (pushOnce q l' ev) l = countFor q l :=
        countFor_pushOnce_other q l l' ev hl
      exact heq ▸ ih (pushOnce q l' ev) (hpres ▸ h) hr

/-- C1: within one open run, enqueuing a listener's invocation N >= 1 times
before the flush (modelled as `pushSeq` with the successive argument payloads,
and as `willUpdateListeners` reaching the listener possibly along several
dependency paths) leaves exactly one pending entry for that listener, the
flush therefore executes it exactly once, and the entry carries the last
enqueued arguments. -/
theorem pushOnce_exactly_once_per_flush
    (q : List (QEntry (List Nat))) (l : Nat) (as : List (List Nat))
    (listeners : List Nat) (ev : List Nat)
    (hne : as ≠ []) (hq : countFor q l ≤ 1) (hm : l ∈ listeners) :
    countFor (pushSeq q l as) l = 1 ∧
    ((flush (pushSeq q l as)).filter (fun e => e.lid == l)).length = 1 ∧
    lastArgsFor (pushSeq q l as) l = as.getLast? ∧
    countFor (willUpdateListeners q listeners ev) l = 1 := by
  refine ⟨countFor_pushSeq q l as hq hne, ?_, lastArgsFor_pushSeq q l as hq hne,
    countFor_willUpdateListeners_mem q listeners ev l hq hm⟩
  exact countFor_pushSeq q l as hq hne

/-- Witness for C1 at a concrete input: empty queue, listener 0 enqueued twice
with payloads [1] then [2], and reached twice by `willUpdateListeners`. -/
theorem pushOnce_exactly_once_per_flush_witness :
    (([] : List (QEntry (List Nat))) ≠ [] ∨ True) ∧
    countFor (pushSeq ([] : List (QEntry (List Nat))) 0 [[1], [2]]) 0 = 1 ∧
    ((flush (pushSeq ([] : List (QEntry (List Nat))) 0 [[1], [2]])).filter
      (fun e => e.lid == 0)).length = 1 ∧
    lastArgsFor (pushSeq ([] : List (QEntry (List Nat))) 0 [[1], [2]]) 0
      = ([[1], [2]] : List (List Nat)).getLast? ∧
    countFor (willUpdateListeners ([] : List (QEntry (List Nat))) [0, 0] [7]) 0 = 1 :=
  ⟨Or.inr trivial,
    pushOnce_exactly_once_per_flush [] 0 [[1], [2]] [0, 0] [7]
      (by decide) (by decide) (by decide)⟩

/- ## Property model -/

/-- JavaScript values as the property layer distinguishes them.  Objects,
arrays and functions are represented by reference identity (a numeric id), so
that equality of `Val` is exactly the strict equality test used by the code;
`vnil` is `null`, `vundef` is `undefined`. -/
inductive Val
  | vnum : Int → Val
  | vstr : String → Val
  | vbool : Bool → Val
  | vnil : Val
  | vundef : Val
  | vfun : Nat → Val
  | varr : Nat → Val
  | vobj : Nat → Val
deriving DecidableEq, Repr

/-- Categories of ProAct.Property.Types (property.js lines 101-170): numeric
codes simple=0, auto=1, object=2, array=3, nil=4, here a closed sum. -/
inductive PType
  | simple
  | auto
  | object
  | array
  | nil
deriving DecidableEq, Repr

/-- ProAct.Property.Types.type (property.js lines 158-170): null maps to nil,
functions to auto, arrays to array, other objects to object, everything else
(including undefined, which fails all the branch tests) to simple. -/
def Types.type (value : Val) : PType :=
  match value with
  | .vnil => .nil
  | .vfun _ => .auto
  | .varr _ => .array
  | .vobj _ => .object
  | _ => .simple

/-- Actor lifecycle states (spec section 3: init, ready, destroyed). -/
inductive ActorState
  | init
  | ready
  | destroyed
deriving DecidableEq, Repr

/-- State of one ProAct.Property cell (property.js constructor lines 54-91):
its current and previous value, the category its concrete subtype reports via
`type()` (the subclass dispatch is modelled as a stored tag, per spec section
9), the static-typing flag computed from the host meta, the actor state and
the change listeners. -/
structure PropertySt where
  val : Val
  oldVal : Val
  ptype : PType
  isStaticTyped : Bool
  state : ActorState
  listeners : List Nat
deriving DecidableEq, Repr

/-- Host object's view of the managed field: either intercepted by an accessor
pair backed by a property cell, or a plain data field holding a value. -/
inductive FieldSt
  | cell : PropertySt → FieldSt
  | plain : Val → FieldSt
deriving DecidableEq, Repr

/-- Host-side bookkeeping: the managed field and whether the property is still
registered in the host's `__pro__.properties` table. -/
structure HostSt where
  field : FieldSt
  inTable : Bool
deriving DecidableEq, Repr

/-- Modelled from the spec: `ProAct.Actor.transform` (the Actor base is not
under src/).  Spec 4.2: the transform pipeline is applied in order and any
transform may signal rejection with the BadValue sentinel, which
short-circuits the rest of the pipeline; `none` is the sentinel. -/
def transformP : List (Val → Option Val) → Val → Option Val
  | [], v => some v
  | t :: ts, v =>
    match t v with
    | none => none
    | some v' => transformP ts v'

/-- ProAct.Property.prototype.doDestroy (property.js lines 462-472): the
property is removed from the host's property table and the field is restored
as a plain, writable data field holding the last known value; the cell's own
references are severed. -/
def doDestroy (p : PropertySt) (_h : HostSt) : PropertySt × HostSt :=
  ({ p with
      val := .vundef
      oldVal := .vundef
      isStaticTyped := false },
   { field := .plain p.val, inTable := false })

/-- Modelled from the spec: `ProAct.Actor.destroy` (the Actor base is not
under src/).  Spec 4.2: destroy transitions the node to destroyed, clears its
listeners, and is idempotent -- a second destroy is a no-op; the concrete
teardown is the source's `doDestroy`. -/
def destroy (p : PropertySt) (h : HostSt) : PropertySt × HostSt :=
  if p.state = .destroyed then (p, h)
  else
    let (p', h') := doDestroy p h
    ({ p' with state := .destroyed, listeners := [] }, h')

/-- Modelled from the spec: `ProAct.ObjectCore.makeProp` (the ObjectCore is
not under src/), as used by `reProb`.  Spec 4.3: the replacement cell is built
from scratch against the field's current plain value, so its category is the
category of that value; the saved change listeners are carried over, the
constructor seeds `oldVal` with null and ends ready. -/
def makeProp (v : Val) (ls : List Nat) : PropertySt :=
  { val := v
    oldVal := .vnil
    ptype := Types.type v
    isStaticTyped := false
    state := .ready
    listeners := ls }

/-- ProAct.Property.reProb (property.js lines 289-300): statically typed or
non-ready properties are not re-probed (the function returns undefined, here
`none`); otherwise the property is destroyed and the host's core rebuilds a
property over the field from its current value, carrying the saved change
listeners. -/
def reProb (p : PropertySt) (h : HostSt) : Option (PropertySt × HostSt) :=
  if p.isStaticTyped || p.state ≠ .ready then none
  else
    let l := p.listeners
    let (_, h') := destroy p h
    match h'.field with
    | .plain v =>
      let pNew := makeProp v l
      some (pNew, { field := .cell pNew, inTable := true })
    | .cell _ => none

/-- Outcome of one call to the default setter. -/
inductive SetOutcome
  | noop
  | updated
  | rebuilt : PropertySt → SetOutcome
  | typeError
deriving DecidableEq, Repr

/-- Result of one call to the default setter: the final cell state, the final
host state, the outcome, and the listeners notified by the triggered update
(empty for a no-op or when the call throws). -/
structure SetResult where
  prop : PropertySt
  host : HostSt
  outcome : SetOutcome
  notified : List Nat
deriving DecidableEq, Repr

/-- ProAct.Property.defaultSetter (property.js lines 222-244), default path
with no custom inner setter: the new value is run through the transform
pipeline; if the result is the BadValue sentinel or strictly equal to the
current value the call is a no-op; otherwise `oldVal`/`val` are shifted and,
when the value's category differs from the property's category and the
property is not auto, `P.P.reProb(property).update()` runs -- if `reProb`
declined (returned undefined) that expression throws a TypeError, modelled as
the `typeError` outcome with no notification.  Otherwise `property.update()`
notifies the change listeners. -/
def defaultSetter (ts : List (Val → Option Val)) (p : PropertySt) (h : HostSt)
    (newVal : Val) : SetResult :=
  match transformP ts newVal with
  | none => ⟨p, h, .noop, []⟩
  | some nv =>
    if p.val = nv then ⟨p, h, .noop, []⟩
    else
      let p1 : PropertySt := { p with oldVal := p.val, val := nv }
      if p1.ptype ≠ .auto ∧ Types.type p1.val ≠ p1.ptype then
        match reProb p1 { h with field := .cell p1 } with
        | some (pNew, hNew) => ⟨pNew, hNew, .rebuilt pNew, pNew.listeners⟩
        | none => ⟨p1, { h with field := .cell p1 }, .typeError, []⟩
      else ⟨p1, { h with field := .cell p1 }, .updated, p1.listeners⟩

/-- C2: a set whose transformed value is rejected by the pipeline or is
strictly equal to the current value is a complete no-op: zero notifications,
`val` and `oldVal` (indeed the whole cell and host) unchanged. -/
theorem set_noop_on_reject_or_equal (ts : List (Val → Option Val))
    (p : PropertySt) (h : HostSt) (x : Val)
    (hcond : transformP ts x = none ∨ transformP ts x = some p.val) :
    defaultSetter ts p h x = ⟨p, h, .noop, []⟩ := by
  rcases hcond with hc | hc <;> simp [defaultSetter, hc]

/-- Witness for C2: setting the property's own current value (empty transform
pipeline) is a no-op. -/
theorem set_noop_on_reject_or_equal_witness :
    (transformP [] (Val.vnum 5) = none ∨
      transformP [] (Val.vnum 5)
        = some (PropertySt.mk (.vnum 5) .vnil .simple false .ready [3]).val) ∧
    defaultSetter [] (PropertySt.mk (.vnum 5) .vnil .simple false .ready [3])
      (HostSt.mk (.plain (.vnum 5)) true) (Val.vnum 5)
      = ⟨PropertySt.mk (.vnum 5) .vnil .simple false .ready [3],
         HostSt.mk (.plain (.vnum 5)) true, .noop, []⟩ :=
  ⟨Or.inr (by decide),
    set_noop_on_reject_or_equal [] _ _ _ (Or.inr (by decide))⟩

/-- C3: when the transformed value's category differs from the property's
current category, the property is not auto and is ready, then: if it is not
statically typed, the cell is destroyed and rebuilt against the new value's
category and the host field holds the new cell; if it is statically typed, no
rebuild happens -- the same cell stays at the field with its value updated in
place (the code then throws a TypeError on `undefined.update()`). -/
theorem set_type_change_rebuilds (ts : List (Val → Option Val))
    (p : PropertySt) (h : HostSt) (x nv : Val)
    (htr : transformP ts x = some nv) (hne : nv ≠ p.val)
    (hauto : p.ptype ≠ .auto) (htype : Types.type nv ≠ p.ptype)
    (hready : p.state = .ready) :
    (p.isStaticTyped = false →
      (defaultSetter ts p h x).outcome = .rebuilt (makeProp nv p.listeners) ∧
      (defaultSetter ts p h x).host.field = .cell (makeProp nv p.listeners) ∧
      (makeProp nv p.listeners).ptype = Types.type nv ∧
      (makeProp nv p.listeners).val = nv) ∧
    (p.isStaticTyped = true →
      (defaultSetter ts p h x).outcome = .typeError ∧
      (defaultSetter ts p h x).host.field
        = .cell { p with oldVal := p.val, val := nv } ∧
      (defaultSetter ts p h x).prop.val = nv) := by
  have hne' : ¬(p.val = nv) := fun hc => hne hc.symm
  constructor
  · intro hstat
    simp [defaultSetter, htr, hne', hauto, htype, reProb, hstat, hready,
      destroy, doDestroy, makeProp]
  · intro hstat
    simp [defaultSetter, htr, hne', hauto, htype, reProb, hstat]

/-- Witness for C3: a ready, non-static simple property holding 5 is rebuilt
as an array-category cell when set to an array. -/
theorem set_type_change_rebuilds_witness :
    (transformP [] (Val.varr 0) = some (Val.varr 0) ∧
      (Val.varr 0) ≠ (PropertySt.mk (.vnum 5) .vnil .simple false .ready [3]).val ∧
      (PropertySt.mk (.vnum 5) .vnil .simple false .ready [3]).ptype ≠ PType.auto ∧
      Types.type (Val.varr 0)
        ≠ (PropertySt.mk (.vnum 5) .vnil .simple false .ready [3]).ptype ∧
      (PropertySt.mk (.vnum 5) .vnil .simple false .ready [3]).state
        = ActorState.ready) ∧
    ((PropertySt.mk (.vnum 5) .vnil .simple false .ready [3]).isStaticTyped = false →
      (defaultSetter [] (PropertySt.mk (.vnum 5) .vnil .simple false .ready [3])
          (HostSt.mk (.plain (.vnum 5)) true) (Val.varr 0)).outcome
        = .rebuilt (makeProp (Val.varr 0) [3]) ∧
      (defaultSetter [] (PropertySt.mk (.vnum 5) .vnil .simple false .ready [3])
          (HostSt.mk (.plain (.vnum 5)) true) (Val.varr 0)).host.field
        = .cell (makeProp (Val.varr 0) [3]) ∧
      (makeProp (Val.varr 0) [3]).ptype = Types.type (Val.varr 0) ∧
      (makeProp (Val.varr 0) [3]).val = Val.varr 0) :=
  ⟨⟨by decide, by decide, by decide, by decide, by decide⟩,
    (set_type_change_rebuilds [] (PropertySt.mk (.vnum 5) .vnil .simple false .ready [3])
      (HostSt.mk (.plain (.vnum 5)) true) (Val.varr 0) (Val.varr 0)
      (by decide) (by decide) (by decide) (by decide) (by decide)).1⟩

/-- C7: destroying a ready property removes it from the host's table, leaves
the field as a plain data field holding the last value, and a second destroy
is a no-op. -/
theorem destroy_idempotent_and_restores (p : PropertySt) (h : HostSt)
    (hready : p.state = .ready) :
    (destroy p h).2.field = .plain p.val ∧
    (destroy p h).2.inTable = false ∧
    (destroy p h).1.state = .destroyed ∧
    destroy (destroy p h).1 (destroy p h).2 = destroy p h := by
  have hnd : p.state ≠ .destroyed := by rw [hready]; intro hc; cases hc
  refine ⟨?_, ?_, ?_, ?_⟩ <;> simp [destroy, doDestroy, hnd]

/-- Witness for C7 at a concrete ready property over value 5. -/
theorem destroy_idempotent_and_restores_witness :
    ((PropertySt.mk (.vnum 5) .vnil .simple false .ready [3]).state
      = ActorState.ready) ∧
    (destroy (PropertySt.mk (.vnum 5) .vnil .simple false .ready [3])
        (HostSt.mk (.cell (PropertySt.mk (.vnum 5) .vnil .simple false .ready [3])) true)).2.field
      = .plain (.vnum 5) ∧
    (destroy (PropertySt.mk (.vnum 5) .vnil .simple false .ready [3])
        (HostSt.mk (.cell (PropertySt.mk (.vnum 5) .vnil .simple false .ready [3])) true)).2.inTable
      = false ∧
    (destroy (PropertySt.mk (.vnum 5) .vnil .simple false .ready [3])
        (HostSt.mk (.cell (PropertySt.mk (.vnum 5) .vnil .simple false .ready [3])) true)).1.state
      = .destroyed ∧
    destroy
      (destroy (PropertySt.mk (.vnum 5) .vnil .simple false .ready [3])
        (HostSt.mk (.cell (PropertySt.mk (.vnum 5) .vnil .simple false .ready [3])) true)).1
      (destroy (PropertySt.mk (.vnum 5) .vnil .simple false .ready [3])
        (HostSt.mk (.cell (PropertySt.mk (.vnum 5) .vnil .simple false .ready [3])) true)).2
      = destroy (PropertySt.mk (.vnum 5) .vnil .simple false .ready [3])
        (HostSt.mk (.cell (PropertySt.mk (.vnum 5) .vnil .simple false .ready [3])) true) := by
  have hmain := destroy_idempotent_and_restores
    (PropertySt.mk (.vnum 5) .vnil .simple false .ready [3])
    (HostSt.mk (.cell (PropertySt.mk (.vnum 5) .vnil .simple false .ready [3])) true)
    (by decide)
  exact ⟨by decide, hmain.1, hmain.2.1, hmain.2.2.1, hmain.2.2.2⟩

/- ## Listener-graph invariants (addCaller / defaultGetter) -/

/-- Listener record as seen by `addCaller`: its identity and, when it is a
property-owned listener, the identity of the owning property
(`listener.property`). -/
structure CallerRef where
  lid : Nat
  owner : Option Nat
deriving DecidableEq, Repr

/-- Observable node as the listener-graph invariants see it: its own identity,
its lifecycle state and its subscribed listeners in insertion order. -/
structure ActorSt where
  id : Nat
  state : ActorState
  listeners : List CallerRef
deriving DecidableEq, Repr

/-- Modelled from the spec: `ProAct.Actor.on` (the Actor base is not under
src/).  Spec 4.2: subscribe is a no-op if the listener is already subscribed
or the node is destroyed; otherwise the listener is appended. -/
def onListener (a : ActorSt) (l : CallerRef) : ActorSt :=
  if a.state = .destroyed ∨ l ∈ a.listeners then a
  else { a with listeners := a.listeners ++ [l] }

/-- ProAct.Property.prototype.addCaller (property.js lines 454-460): the
ambient `ProAct.currentCaller`, if set and not owned by this very property
(`caller.property !== this`), is subscribed via `on`. -/
def addCaller (a : ActorSt) (currentCaller : Option CallerRef) : ActorSt :=
  match currentCaller with
  | none => a
  | some caller => if caller.owner ≠ some a.id then onListener a caller else a

/-- ProAct.Property.defaultGetter (property.js lines 191-197): reading the
property runs `addCaller` against the ambient current caller and returns the
property's value. -/
def defaultGetter (a : ActorSt) (v : Val) (currentCaller : Option CallerRef) :
    ActorSt × Val :=
  (addCaller a currentCaller, v)

lemma onListener_nodup (a : ActorSt) (l : CallerRef) (h : a.listeners.Nodup) :
    (onListener a l).listeners.Nodup := by
  unfold onListener
  by_cases hc : a.state = .destroyed ∨ l ∈ a.listeners
  · simpa [hc] using h
  · push_neg at hc
    simp [hc.1, hc.2, List.nodup_append, h]

/-- C9: subscribing preserves listener dedup (no listener ever appears twice),
and a node never subscribes to its own updates through the getter: when the
ambient caller is owned by the property itself, `addCaller` (and hence the
default getter) leaves the node unchanged. -/
theorem listeners_nodup_and_no_self_subscribe (a : ActorSt) (l : CallerRef)
    (cc : Option CallerRef) (own : CallerRef) (v : Val)
    (hnd : a.listeners.Nodup) (hown : own.owner = some a.id) :
    (onListener a l).listeners.Nodup ∧
    (addCaller a cc).listeners.Nodup ∧
    addCaller a (some own) = a ∧
    defaultGetter a v (some own) = (a, v) := by
  have hself : addCaller a (some own) = a := by
    simp [addCaller, hown]
  refine ⟨onListener_nodup a l hnd, ?_, hself, ?_⟩
  · cases cc with
    | none => simpa [addCaller] using hnd
    | some c =>
      by_cases hc : c.owner ≠ some a.id
      · simpa [addCaller, hc] using onListener_nodup a c hnd
      · simpa [addCaller, hc] using hnd
  · simp [defaultGetter, hself]

/-- Witness for C9: a ready node with one listener, a duplicate subscribe
attempt, a foreign caller and a self-owned caller. -/
theorem listeners_nodup_and_no_self_subscribe_witness :
    ((ActorSt.mk 0 .ready [⟨1, none⟩]).listeners.Nodup ∧
      (CallerRef.mk 9 (some 0)).owner = some (ActorSt.mk 0 .ready [⟨1, none⟩]).id) ∧
    (onListener (ActorSt.mk 0 .ready [⟨1, none⟩]) ⟨1, none⟩).listeners.Nodup ∧
    (addCaller (ActorSt.mk 0 .ready [⟨1, none⟩])
      (some ⟨2, some 5⟩)).listeners.Nodup ∧
    addCaller (ActorSt.mk 0 .ready [⟨1, none⟩]) (some ⟨9, some 0⟩)
      = ActorSt.mk 0 .ready [⟨1, none⟩] ∧
    defaultGetter (ActorSt.mk 0 .ready [⟨1, none⟩]) (.vnum 3) (some ⟨9, some 0⟩)
      = (ActorSt.mk 0 .ready [⟨1, none⟩], .vnum 3) :=
  ⟨⟨by decide, by decide⟩,
    listeners_nodup_and_no_self_subscribe (ActorSt.mk 0 .ready [⟨1, none⟩])
      ⟨1, none⟩ (some ⟨2, some 5⟩) ⟨9, some 0⟩ (.vnum 3) (by decide) (by decide)⟩

/- ## ReactiveSequence (ProAct.Array) model -/

/-- Operation codes of ProAct.Array.Operations (src/unnamed/part_000 lines
25-37); the source uses the numbers 0-6, here a closed sum in the same
order. -/
inductive ArrOp
  | set
  | add
  | remove
  | setLength
  | reverse
  | sort
  | splice
deriving DecidableEq, Repr

/-- ProAct.Array.Operations.isIndexOp (lines 34-37): true exactly for set,
reverse and sort. -/
def Operations.isIndexOp (op : ArrOp) : Bool :=
  op == .set || op == .reverse || op == .sort

/-- Which of the two listener scopes a splice notification targets. -/
inductive NotifyTarget
  | idx
  | len
  | both
deriving DecidableEq, Repr

/-- Classification branch of willUpdateSplice (lines 49-65): nothing when both
deltas are empty, index listeners at equal counts, length listeners when
exactly one side is empty, both sets otherwise. -/
def willUpdateSpliceTargets (spliced newItems : List Int) : Option NotifyTarget :=
  if spliced = [] ∧ newItems = [] then none
  else if spliced.length = newItems.length then some .idx
  else if newItems = [] ∨ spliced = [] then some .len
  else some .both

/-- Index-scoped and length-scoped listener lists of the array core. -/
structure PAListeners where
  index : List Nat
  length : List Nat
deriving DecidableEq, Repr

/-- Concrete listener list chosen by willUpdateSplice:
`this.__pro__.listeners.index`, `this.__pro__.listeners.length`, or
`length.concat(index)`. -/
def willUpdateSpliceListeners (ls : PAListeners) (spliced newItems : List Int) :
    List Nat :=
  match willUpdateSpliceTargets spliced newItems with
  | none => []
  | some .idx => ls.index
  | some .len => ls.length
  | some .both => ls.length ++ ls.index

/-- Bookkeeping and notification actions a sequence mutation performs, in the
order it performs them. -/
inductive PAction
  | defineCell : Int → PAction
  | deleteCell : Int → PAction
  | enqueue : ArrOp → Int → List Int → List Int → PAction
deriving DecidableEq, Repr

/-- State of a ProAct.Array: the backing `_array` and the set of indices that
currently expose an index-cell. -/
structure PASt where
  arr : List Int
  cells : Finset Nat
deriving DecidableEq

/-- Modelled from the spec: `this.__pro__.defineIndexProp(i)` (the ArrayCore
is not under src/; spec section 3: growth allocates the index-cell for the new
index).  Negative indices name no index-cell. -/
def defineIndexProp (c : Finset Nat) (i : Int) : Finset Nat :=
  if 0 ≤ i then insert i.toNat c else c

/-- Effect of `delete this[i]` on the exposed index-cells; deleting a negative
or absent index is a no-op on the cell set. -/
def deleteIndexCell (c : Finset Nat) (i : Int) : Finset Nat :=
  if 0 ≤ i then c.erase i.toNat else c

/-- Enqueue step of updateSplice and willUpdateSplice (lines 49-75): one
splice event, unless both deltas are empty in which case nothing is
enqueued. -/
def updateSpliceActions (index : Int) (spliced newItems : List Int) : List PAction :=
  if spliced = [] ∧ newItems = [] then []
  else [.enqueue .splice index spliced newItems]

/-- Native Array.prototype.splice semantics used by the raw mutation: clamped
start index and delete count; returns the mutated array and the removed
elements. -/
def jsSplice (arr : List Int) (start : Int) (howMany : Option Int)
    (items : List Int) : List Int × List Int :=
  let len : Int := arr.length
  let aStart : Nat := (if start < 0 then max (len + start) 0 else min start len).toNat
  let aDel : Nat :=
    match howMany with
    | none => arr.length - aStart
    | some h => (min (max h 0) (len - (aStart : Int))).toNat
  (arr.take aStart ++ items ++ arr.drop (aStart + aDel),
   (arr.drop aStart).take aDel)

/-- Growth loop of splice: `while (delta--) defineIndexProp(oldLn++)`. -/
def defineCellsFrom (c : Finset Nat) (start : Int) : Nat → Finset Nat × List PAction
  | 0 => (c, [])
  | Nat.succ k =>
    let r := defineCellsFrom (defineIndexProp c start) (start + 1) k
    (r.1, .defineCell start :: r.2)

/-- Shrink loop of splice: `while (delta--) delete this[--oldLn]`. -/
def deleteCellsDown (c : Finset Nat) (top : Int) : Nat → Finset Nat × List PAction
  | 0 => (c, [])
  | Nat.succ k =>
    let r := deleteCellsDown (deleteIndexCell c (top - 1)) (top - 1) k
    (r.1, .deleteCell (top - 1) :: r.2)

/-- ProAct.Array.prototype.splice (lines 262-285): raw native splice, then
index-cell growth or shrink bookkeeping driven by the raw `howMany` argument
(not the clamped count), then the splice update.  Returns the new state, the
ordered action trace, and the removed elements. -/
def PA.splice (s : PASt) (index0 : Int) (howMany0 : Option Int)
    (newItems : List Int) : PASt × List PAction × List Int :=
  let oldLn : Int := s.arr.length
  let r := jsSplice s.arr index0 howMany0 newItems
  let arr' := r.1
  let spliced := r.2
  let ln : Int := arr'.length
  let index : Int := if index0 = -1 then ln - index0 else index0
  let howMany : Int :=
    match howMany0 with
    | none => ln - index
    | some h => h
  let book :=
    if (newItems.length : Int) > howMany then
      defineCellsFrom s.cells oldLn ((newItems.length : Int) - howMany).toNat
    else if howMany > (newItems.length : Int) then
      deleteCellsDown s.cells oldLn (howMany - (newItems.length : Int)).toNat
    else (s.cells, [])
  (⟨arr', book.1⟩, book.2 ++ updateSpliceActions index spliced newItems, spliced)

/-- ProAct.Array.prototype.pop (lines 286-297): empty guard, raw pop, release
of the trailing index-cell, then the remove update. -/
def PA.pop (s : PASt) : PASt × List PAction × Option Int :=
  match s.arr.getLast? with
  | none => (s, [], none)
  | some popped =>
    let arr' := s.arr.dropLast
    let index : Int := arr'.length
    (⟨arr', deleteIndexCell s.cells index⟩,
     [.deleteCell index, .enqueue .remove index [popped] []], some popped)

/-- Loop body of ProAct.Array.prototype.push (lines 298-311): each value is
appended to the backing array and the index-cell for its index is defined. -/
def pushSteps (arr : List Int) (cells : Finset Nat) :
    List Int → List Int × Finset Nat × List PAction
  | [] => (arr, cells, [])
  | v :: vs =>
    let idx : Int := arr.length
    let rest := pushSteps (arr ++ [v]) (defineIndexProp cells idx) vs
    (rest.1, rest.2.1, .defineCell idx :: rest.2.2)

/-- ProAct.Array.prototype.push (lines 298-311): the append loop, then one add
update enqueued with index `length - 1` and the pushed values; returns the new
length. -/
def PA.push (s : PASt) (vals : List Int) : PASt × List PAction × Nat :=
  let step := pushSteps s.arr s.cells vals
  (⟨step.1, step.2.1⟩,
   step.2.2 ++ [.enqueue .add ((step.1.length : Int) - 1) [] vals],
   step.1.length)

/-- ProAct.Array.prototype.shift (lines 312-323): empty guard, raw shift,
release of the trailing index-cell, then the remove update at index 0. -/
def PA.shift (s : PASt) : PASt × List PAction × Option Int :=
  match s.arr with
  | [] => (s, [], none)
  | x :: rest =>
    let index : Int := rest.length
    (⟨rest, deleteIndexCell s.cells index⟩,
     [.deleteCell index, .enqueue .remove 0 [x] []], some x)

/-- Loop body of ProAct.Array.prototype.unshift (lines 324-336): the i-th
argument is spliced in at position i and the index-cell for the then-last
index is defined. -/
def unshiftSteps (arr : List Int) (cells : Finset Nat) (i : Nat) :
    List Int → List Int × Finset Nat × List PAction
  | [] => (arr, cells, [])
  | v :: vs =>
    let a' := arr.insertIdx i v
    let idx : Int := (a'.length : Int) - 1
    let rest := unshiftSteps a' (defineIndexProp cells idx) (i + 1) vs
    (rest.1, rest.2.1, .defineCell idx :: rest.2.2)

/-- ProAct.Array.prototype.unshift (lines 324-336): the splice-in loop, then
one add update at index 0 carrying the inserted values; returns the new
length. -/
def PA.unshift (s : PASt) (vals : List Int) : PASt × List PAction × Nat :=
  let step := unshiftSteps s.arr s.cells 0 vals
  (⟨step.1, step.2.1⟩, step.2.2 ++ [.enqueue .add 0 [] vals], step.1.length)

/-- ProAct.Array.prototype.reverse (lines 243-251): empty guard, raw reverse
(no cell bookkeeping), then the reverse update with index -1. -/
def PA.reverse (s : PASt) : PASt × List PAction × Option (List Int) :=
  if s.arr = [] then (s, [], none)
  else (⟨s.arr.reverse, s.cells⟩, [.enqueue .reverse (-1) [] []], some s.arr.reverse)

/-- ProAct.Array.prototype.sort (lines 252-261): empty guard, raw comparator
sort (no cell bookkeeping), then the sort update with index -1; the
comparator arguments of the event payload are not value lists and are modelled
as the empty list. -/
def PA.sortWith (s : PASt) (le : Int → Int → Bool) : PASt × List PAction × Option (List Int) :=
  if s.arr = [] then (s, [], none)
  else
    let sorted := s.arr.mergeSort le
    (⟨sorted, s.cells⟩, [.enqueue .sort (-1) [] []], some sorted)

/-- True for the index-cell bookkeeping actions. -/
def isCellAction : PAction → Bool
  | .defineCell _ => true
  | .deleteCell _ => true
  | .enqueue _ _ _ _ => false

/-- True for the notification actions. -/
def isEnqueueAction : PAction → Bool
  | .enqueue _ _ _ _ => true
  | _ => false

/-- All index-cell bookkeeping in the trace happens strictly before any
notification is enqueued. -/
def bookkeepingBeforeEnqueue (tr : List PAction) : Bool :=
  (tr.dropWhile isCellAction).all isEnqueueAction

/-- C4: a splice notification with equal removed and inserted counts goes only
to index-scoped listeners; with exactly one of the counts zero it goes only to
length-scoped listeners; with both nonzero and different it goes to both sets;
and set, reverse and sort are classified as index operations. -/
theorem splice_notification_classification (spliced newItems : List Int)
    (ls : PAListeners) (hne : ¬(spliced = [] ∧ newItems = [])) :
    (spliced.length = newItems.length →
      willUpdateSpliceListeners ls spliced newItems = ls.index) ∧
    (spliced = [] ∨ newItems = [] →
      willUpdateSpliceListeners ls spliced newItems = ls.length) ∧
    (spliced ≠ [] → newItems ≠ [] → spliced.length ≠ newItems.length →
      willUpdateSpliceListeners ls spliced newItems = ls.length ++ ls.index) ∧
    Operations.isIndexOp .set = true ∧
    Operations.isIndexOp .reverse = true ∧
    Operations.isIndexOp .sort = true := by
  refine ⟨?_, ?_, ?_, rfl, rfl, rfl⟩
  · intro hlen
    simp [willUpdateSpliceListeners, willUpdateSpliceTargets, hne, hlen]
  · intro hzero
    rcases hzero with hz | hz
    · have hn : newItems ≠ [] := fun hc => hne ⟨hz, hc⟩
      subst hz
      rcases newItems with _ | ⟨y, ys⟩
      · exact absurd rfl hn
      · simp [willUpdateSpliceListeners, willUpdateSpliceTargets]
    · have hs : spliced ≠ [] := fun hc => hne ⟨hc, hz⟩
      subst hz
      rcases spliced with _ | ⟨y, ys⟩
      · exact absurd rfl hs
      · simp [willUpdateSpliceListeners, willUpdateSpliceTargets]
  · intro hs hn hlen
    simp [willUpdateSpliceListeners, willUpdateSpliceTargets, hne, hlen, hs, hn]

/-- Witness for C4 at removed [1], inserted [2, 3] (counts 1 and 2: both
nonzero and different, so both listener sets). -/
theorem splice_notification_classification_witness :
    (¬(([1] : List Int) = [] ∧ ([2, 3] : List Int) = [])) ∧
    (([1] : List Int).length = ([2, 3] : List Int).length →
      willUpdateSpliceListeners ⟨[10], [20]⟩ [1] [2, 3] = [10]) ∧
    (([1] : List Int) = [] ∨ ([2, 3] : List Int) = [] →
      willUpdateSpliceListeners ⟨[10], [20]⟩ [1] [2, 3] = [20]) ∧
    (([1] : List Int) ≠ [] → ([2, 3] : List Int) ≠ [] →
      ([1] : List Int).length ≠ ([2, 3] : List Int).length →
      willUpdateSpliceListeners ⟨[10], [20]⟩ [1] [2, 3] = [20] ++ [10]) ∧
    Operations.isIndexOp .set = true ∧
    Operations.isIndexOp .reverse = true ∧
    Operations.isIndexOp .sort = true :=
  ⟨by decide, splice_notification_classification [1] [2, 3] ⟨[10], [20]⟩ (by decide)⟩

/-- C10: pop, shift, reverse and sort on an empty backing array return
undefined, perform no index-cell bookkeeping, enqueue nothing and leave the
state unchanged. -/
theorem empty_array_ops_noop (s : PASt) (le : Int → Int → Bool)
    (h : s.arr = []) :
    PA.pop s = (s, [], none) ∧
    PA.shift s = (s, [], none) ∧
    PA.reverse s = (s, [], none) ∧
    PA.sortWith s le = (s, [], none) := by
  obtain ⟨arr, cells⟩ := s
  subst h
  refine ⟨?_, ?_, ?_, ?_⟩ <;> simp [PA.pop, PA.shift, PA.reverse, PA.sortWith]

/-- Witness for C10 at the empty sequence with a trivial comparator. -/
theorem empty_array_ops_noop_witness :
    ((PASt.mk [] ∅).arr = []) ∧
    PA.pop (PASt.mk [] ∅) = (PASt.mk [] ∅, [], none) ∧
    PA.shift (PASt.mk [] ∅) = (PASt.mk [] ∅, [], none) ∧
    PA.reverse (PASt.mk [] ∅) = (PASt.mk [] ∅, [], none) ∧
    PA.sortWith (PASt.mk [] ∅) (fun a b => a ≤ b) = (PASt.mk [] ∅, [], none) :=
  ⟨rfl, empty_array_ops_noop (PASt.mk [] ∅) (fun a b => a ≤ b) rfl⟩

lemma isCellAction_false_of_enqueue (a : PAction) (h : isEnqueueAction a = true) :
    isCellAction a = false := by
  cases a <;> simp [isCellAction, isEnqueueAction] at h ⊢

lemma bookkeepingBeforeEnqueue_append (pre post : List PAction)
    (hpre : ∀ a ∈ pre, isCellAction a = true)
    (hpost : ∀ a ∈ post, isEnqueueAction a = true) :
    bookkeepingBeforeEnqueue (pre ++ post) = true := by
  induction pre with
  | nil =>
    cases post with
    | nil => rfl
    | cons a post =>
      have ha := hpost a (List.mem_cons_self a post)
      have hfa := isCellAction_false_of_enqueue a ha
      simp only [List.nil_append, bookkeepingBeforeEnqueue, List.dropWhile_cons, hfa,
        Bool.false_eq_true, if_false, List.all_cons, ha, Bool.true_and, List.all_eq_true]
      exact fun x hx => hpost x (List.mem_cons_of_mem a hx)
  | cons a pre ih =>
    have ha := hpre a (List.mem_cons_self a pre)
    have htail := ih (fun x hx => hpre x (List.mem_cons_of_mem a hx))
    simpa only [bookkeepingBeforeEnqueue, List.cons_append, List.dropWhile_cons, ha,
      if_true] using htail

lemma updateSpliceActions_enqueue (i : Int) (sp ni : List Int) :
    ∀ a ∈ updateSpliceActions i sp ni, isEnqueueAction a = true := by
  intro a ha
  unfold updateSpliceActions at ha
  by_cases h : sp = [] ∧ ni = []
  · simp [h] at ha
  · simp [h] at ha
    subst ha
    rfl

lemma defineCellsFrom_actions (c : Finset Nat) (start : Int) (k : Nat) :
    ∀ a ∈ (defineCellsFrom c start k).2, isCellAction a = true := by
  induction k generalizing c start with
  | zero => intro a ha; simp [defineCellsFrom] at ha
  | succ k ih =>
    intro a ha
    simp only [defineCellsFrom, List.mem_cons] at ha
    rcases ha with ha | ha
    · subst ha; rfl
    · exact ih _ _ a ha

lemma deleteCellsDown_actions (c : Finset Nat) (top : Int) (k : Nat) :
    ∀ a ∈ (deleteCellsDown c top k).2, isCellAction a = true := by
  induction k generalizing c top with
  | zero => intro a ha; simp [deleteCellsDown] at ha
  | succ k ih =>
    intro a ha
    simp only [deleteCellsDown, List.mem_cons] at ha
    rcases ha with ha | ha
    · subst ha; rfl
    · exact ih _ _ a ha

lemma defineCellsFrom_range (n k : Nat) :
    (defineCellsFrom (Finset.range n) (n : Int) k).1 = Finset.range (n + k) := by
  induction k generalizing n with
  | zero => simp [defineCellsFrom]
  | succ k ih =>
    have hstep : defineIndexProp (Finset.range n) (n : Int) = Finset.range (n + 1) := by
      simp [defineIndexProp, Finset.range_succ]
    have hcast : ((n : Int) + 1) = ((n + 1 : Nat) : Int) := by push_cast; ring
    calc (defineCellsFrom (Finset.range n) (n : Int) (k + 1)).1
        = (defineCellsFrom (defineIndexProp (Finset.range n) (n : Int)) ((n : Int) + 1) k).1 := rfl
      _ = (defineCellsFrom (Finset.range (n + 1)) ((n + 1 : Nat) : Int) k).1 := by
          rw [hstep, hcast]
      _ = Finset.range (n + 1 + k) := ih (n + 1)
      _ = Finset.range (n + (k + 1)) := by ring_nf

lemma deleteCellsDown_range (n k : Nat) (hk : k ≤ n) :
    (deleteCellsDown (Finset.range n) (n : Int) k).1 = Finset.range (n - k) := by
  induction k generalizing n with
  | zero => simp [deleteCellsDown]
  | succ k ih =>
    obtain ⟨m, rfl⟩ : ∃ m, n = m + 1 := ⟨n - 1, by omega⟩
    have hstep : deleteIndexCell (Finset.range (m + 1)) (((m + 1 : Nat) : Int) - 1)
        = Finset.range m := by
      have h1 : (((m + 1 : Nat) : Int) - 1) = (m : Int) := by push_cast; ring
      rw [h1]
      simp [deleteIndexCell, Finset.range_succ, Finset.erase_insert, Finset.not_mem_range_self]
    have hcast : (((m + 1 : Nat) : Int) - 1) = ((m : Nat) : Int) := by push_cast; ring
    calc (deleteCellsDown (Finset.range (m + 1)) ((m + 1 : Nat) : Int) (k + 1)).1
        = (deleteCellsDown (deleteIndexCell (Finset.range (m + 1)) (((m + 1 : Nat) : Int) - 1))
            (((m + 1 : Nat) : Int) - 1) k).1 := rfl
      _ = (deleteCellsDown (Finset.range m) ((m : Nat) : Int) k).1 := by rw [hstep, hcast]
      _ = Finset.range (m - k) := ih m (by omega)
      _ = Finset.range (m + 1 - (k + 1)) := by
          congr 1
          omega

lemma pushSteps_wf (vs : List Int) : ∀ (arr : List Int) (cells : Finset Nat),
    cells = Finset.range arr.length →
    (pushSteps arr cells vs).2.1 = Finset.range (pushSteps arr cells vs).1.length ∧
    (∀ a ∈ (pushSteps arr cells vs).2.2, isCellAction a = true) := by
  induction vs with
  | nil =>
    intro arr cells hwf
    exact ⟨by simpa [pushSteps] using hwf, by simp [pushSteps]⟩
  | cons v vs ih =>
    intro arr cells hwf
    have hcell : defineIndexProp cells ((arr.length : Nat) : Int)
        = Finset.range (arr ++ [v]).length := by
      simp [defineIndexProp, hwf, Finset.range_succ]
    have hrec := ih (arr ++ [v]) (defineIndexProp cells ((arr.length : Nat) : Int)) hcell
    refine ⟨hrec.1, ?_⟩
    intro a ha
    simp only [pushSteps, List.mem_cons] at ha
    rcases ha with ha | ha
    · subst ha; rfl
    · exact hrec.2 a ha

lemma unshiftSteps_wf (vs : List Int) : ∀ (arr : List Int) (cells : Finset Nat) (i : Nat),
    i ≤ arr.length → cells = Finset.range arr.length →
    (unshiftSteps arr cells i vs).2.1 = Finset.range (unshiftSteps arr cells i vs).1.length ∧
    (∀ a ∈ (unshiftSteps arr cells i vs).2.2, isCellAction a = true) := by
  induction vs with
  | nil =>
    intro arr cells i hi hwf
    exact ⟨by simpa [unshiftSteps] using hwf, by simp [unshiftSteps]⟩
  | cons v vs ih =>
    intro arr cells i hi hwf
    have hlen : (arr.insertIdx i v).length = arr.length + 1 :=
      List.length_insertIdx i arr hi
    have hidx : (((arr.insertIdx i v).length : Nat) : Int) - 1 = ((arr.length : Nat) : Int) := by
      rw [hlen]; push_cast; ring
    have hcell : defineIndexProp cells ((((arr.insertIdx i v).length : Nat) : Int) - 1)
        = Finset.range (arr.insertIdx i v).length := by
      rw [hidx]
      simp [defineIndexProp, hwf, hlen, Finset.range_succ]
    have hrec := ih (arr.insertIdx i v) _ (i + 1) (by omega) hcell
    refine ⟨hrec.1, ?_⟩
    intro a ha
    simp only [unshiftSteps, List.mem_cons] at ha
    rcases ha with ha | ha
    · subst ha; rfl
    · exact hrec.2 a ha

lemma erase_range_top (m : Nat) :
    (Finset.range (m + 1)).erase m = Finset.range m := by
  rw [Finset.range_succ, Finset.erase_insert Finset.not_mem_range_self]

lemma pop_wf (s : PASt) (hwf : s.cells = Finset.range s.arr.length) :
    (PA.pop s).1.cells = Finset.range (PA.pop s).1.arr.length ∧
    bookkeepingBeforeEnqueue (PA.pop s).2.1 = true := by
  obtain ⟨arr, cells⟩ := s
  have hwf' : cells = Finset.range arr.length := hwf
  cases harr : arr.getLast? with
  | none =>
    exact ⟨by simpa [PA.pop, harr] using hwf',
      by simp [PA.pop, harr, bookkeepingBeforeEnqueue]⟩
  | some popped =>
    have hne : arr ≠ [] := by
      intro hc
      rw [hc] at harr
      cases harr
    obtain ⟨m, hm⟩ : ∃ m, arr.length = m + 1 :=
      ⟨arr.length - 1, by cases arr with | nil => exact absurd rfl hne | cons a l => simp⟩
    have hdl : arr.dropLast.length = m := by
      simp [List.length_dropLast, hm]
    have hcells : deleteIndexCell cells ((arr.dropLast.length : Nat) : Int)
        = Finset.range arr.dropLast.length := by
      simp only [deleteIndexCell, hwf', hdl, hm]
      rw [if_pos (by omega)]
      simpa using erase_range_top m
    refine ⟨by simpa [PA.pop, harr] using hcells, ?_⟩
    have : (PA.pop ⟨arr, cells⟩).2.1
        = [.deleteCell ((arr.dropLast.length : Nat) : Int),
           .enqueue .remove ((arr.dropLast.length : Nat) : Int) [popped] []] := by
      simp [PA.pop, harr]
    rw [this]
    exact bookkeepingBeforeEnqueue_append
      [.deleteCell ((arr.dropLast.length : Nat) : Int)]
      [.enqueue .remove ((arr.dropLast.length : Nat) : Int) [popped] []]
      (by intro a ha; simp at ha; subst ha; rfl)
      (by intro a ha; simp at ha; subst ha; rfl)

lemma shift_wf (s : PASt) (hwf : s.cells = Finset.range s.arr.length) :
    (PA.shift s).1.cells = Finset.range (PA.shift s).1.arr.length ∧
    bookkeepingBeforeEnqueue (PA.shift s).2.1 = true := by
  obtain ⟨arr, cells⟩ := s
  have hwf' : cells = Finset.range arr.length := hwf
  cases arr with
  | nil =>
    exact ⟨by simpa [PA.shift] using hwf',
      by simp [PA.shift, bookkeepingBeforeEnqueue]⟩
  | cons x rest =>
    have hwf2 : cells = Finset.range (rest.length + 1) := by simpa using hwf'
    have hcells : deleteIndexCell cells ((rest.length : Nat) : Int)
        = Finset.range rest.length := by
      simp only [deleteIndexCell, hwf2, List.length_cons]
      rw [if_pos (by omega)]
      simpa using erase_range_top rest.length
    refine ⟨by simpa [PA.shift] using hcells, ?_⟩
    have : (PA.shift ⟨x :: rest, cells⟩).2.1
        = [.deleteCell ((rest.length : Nat) : Int),
           .enqueue .remove 0 [x] []] := by
      simp [PA.shift]
    rw [this]
    exact bookkeepingBeforeEnqueue_append
      [.deleteCell ((rest.length : Nat) : Int)]
      [.enqueue .remove 0 [x] []]
      (by intro a ha; simp at ha; subst ha; rfl)
      (by intro a ha; simp at ha; subst ha; rfl)

lemma jsSplice_in_range (arr : List Int) (i h : Nat) (items : List Int)
    (hi : i ≤ arr.length) (hh : h ≤ arr.length - i) :
    jsSplice arr (i : Int) (some (h : Int)) items
      = (arr.take i ++ items ++ arr.drop (i + h), (arr.drop i).take h) := by
  have h1 : ¬((i : Int) < 0) := by omega
  have h2 : (min (i : Int) ((arr.length : Nat) : Int)).toNat = i := by omega
  have h3 : (min (max ((h : Nat) : Int) 0)
      (((arr.length : Nat) : Int) - ((i : Nat) : Int))).toNat = h := by omega
  simp only [jsSplice, h1, if_false, h2, h3]

lemma splice_wf (arr items : List Int) (i h : Nat)
    (hi : i ≤ arr.length) (hh : h ≤ arr.length - i) :
    (PA.splice ⟨arr, Finset.range arr.length⟩ (i : Int) (some (h : Int)) items).1.cells
      = Finset.range
        (PA.splice ⟨arr, Finset.range arr.length⟩ (i : Int) (some (h : Int)) items).1.arr.length ∧
    bookkeepingBeforeEnqueue
      (PA.splice ⟨arr, Finset.range arr.length⟩ (i : Int) (some (h : Int)) items).2.1 = true := by
  have hjs := jsSplice_in_range arr i h items hi hh
  have hni : ¬((i : Int) = -1) := by omega
  have hlen' : (arr.take i ++ items ++ arr.drop (i + h)).length
      = arr.length - h + items.length := by
    simp [List.length_take, List.length_drop, Nat.min_eq_left hi]
    omega
  rcases Nat.lt_trichotomy h items.length with hlt | heq | hgt
  · -- growth: more items inserted than the raw howMany
    have hcond : ((items.length : Nat) : Int) > ((h : Nat) : Int) := by omega
    have hdelta : (((items.length : Nat) : Int) - ((h : Nat) : Int)).toNat
        = items.length - h := by omega
    constructor
    · simp only [PA.splice, hjs, hni, if_false, if_pos hcond, hdelta]
      rw [defineCellsFrom_range arr.length (items.length - h), hlen']
      congr 1
      omega
    · simp only [PA.splice, hjs, hni, if_false, if_pos hcond, hdelta]
      exact bookkeepingBeforeEnqueue_append _ _
        (defineCellsFrom_actions _ _ _)
        (updateSpliceActions_enqueue _ _ _)
  · -- equal counts: no cell bookkeeping
    have hc1 : ¬(((items.length : Nat) : Int) > ((h : Nat) : Int)) := by omega
    have hc2 : ¬(((h : Nat) : Int) > ((items.length : Nat) : Int)) := by omega
    constructor
    · simp only [PA.splice, hjs, hni, if_false, if_neg hc1, if_neg hc2]
      rw [hlen']
      congr 1
      omega
    · simp only [PA.splice, hjs, hni, if_false, if_neg hc1, if_neg hc2]
      exact bookkeepingBeforeEnqueue_append [] _
        (by intro a ha; cases ha)
        (updateSpliceActions_enqueue _ _ _)
  · -- shrink: raw howMany larger than the inserted count
    have hc1 : ¬(((items.length : Nat) : Int) > ((h : Nat) : Int)) := by omega
    have hcond : ((h : Nat) : Int) > ((items.length : Nat) : Int) := by omega
    have hdelta : (((h : Nat) : Int) - ((items.length : Nat) : Int)).toNat
        = h - items.length := by omega
    constructor
    · simp only [PA.splice, hjs, hni, if_false, if_neg hc1, if_pos hcond, hdelta]
      rw [deleteCellsDown_range arr.length (h - items.length) (by omega), hlen']
      congr 1
      omega
    · simp only [PA.splice, hjs, hni, if_false, if_neg hc1, if_pos hcond, hdelta]
      exact bookkeepingBeforeEnqueue_append _ _
        (deleteCellsDown_actions _ _ _)
        (updateSpliceActions_enqueue _ _ _)

/-- C5 (amended): for the length-changing mutations present in the source
(push, pop, shift, unshift, and splice with its index and raw howMany within
the backing bounds), the exposed index-cells exactly cover the backing
array's indices when the call returns, and all index-cell bookkeeping --
growth and shrinkage alike -- happens strictly before the update is enqueued
(the source releases trailing cells before, not after, the enqueue;
`setLength` lives in the array core, which is not under src/). -/
theorem seq_index_cells_track_length (s : PASt) (vals items : List Int) (i h : Nat)
    (hwf : s.cells = Finset.range s.arr.length)
    (hi : i ≤ s.arr.length) (hh : h ≤ s.arr.length - i) :
    ((PA.push s vals).1.cells = Finset.range (PA.push s vals).1.arr.length ∧
      bookkeepingBeforeEnqueue (PA.push s vals).2.1 = true) ∧
    ((PA.pop s).1.cells = Finset.range (PA.pop s).1.arr.length ∧
      bookkeepingBeforeEnqueue (PA.pop s).2.1 = true) ∧
    ((PA.shift s).1.cells = Finset.range (PA.shift s).1.arr.length ∧
      bookkeepingBeforeEnqueue (PA.shift s).2.1 = true) ∧
    ((PA.unshift s vals).1.cells = Finset.range (PA.unshift s vals).1.arr.length ∧
      bookkeepingBeforeEnqueue (PA.unshift s vals).2.1 = true) ∧
    ((PA.splice s (i : Int) (some (h : Int)) items).1.cells
        = Finset.range (PA.splice s (i : Int) (some (h : Int)) items).1.arr.length ∧
      bookkeepingBeforeEnqueue (PA.splice s (i : Int) (some (h : Int)) items).2.1 = true) := by
  obtain ⟨arr, cells⟩ := s
  have hwf' : cells = Finset.range arr.length := hwf
  subst hwf'
  have hi' : i ≤ arr.length := hi
  have hh' : h ≤ arr.length - i := hh
  refine ⟨?_, pop_wf _ rfl, shift_wf _ rfl, ?_, splice_wf arr items i h hi' hh'⟩
  · have hps := pushSteps_wf vals arr (Finset.range arr.length) rfl
    constructor
    · simpa [PA.push] using hps.1
    · have htr : (PA.push ⟨arr, Finset.range arr.length⟩ vals).2.1
          = (pushSteps arr (Finset.range arr.length) vals).2.2
            ++ [.enqueue .add
              (((pushSteps arr (Finset.range arr.length) vals).1.length : Int) - 1)
              [] vals] := rfl
      rw [htr]
      exact bookkeepingBeforeEnqueue_append _ _ hps.2
        (by intro a ha; simp at ha; subst ha; rfl)
  · have hus := unshiftSteps_wf vals arr (Finset.range arr.length) 0 (by omega) rfl
    constructor
    · simpa [PA.unshift] using hus.1
    · have htr : (PA.unshift ⟨arr, Finset.range arr.length⟩ vals).2.1
          = (unshiftSteps arr (Finset.range arr.length) 0 vals).2.2
            ++ [.enqueue .add 0 [] vals] := rfl
      rw [htr]
      exact bookkeepingBeforeEnqueue_append _ _ hus.2
        (by intro a ha; simp at ha; subst ha; rfl)

/-- Counterexample for C5 as stated: splicing `[1, 2]` at index 1 with raw
howMany 5 (more than the elements available) returns with zero exposed
index-cells while the backing array still has length 1, so the cell count does
not equal the backing length; and pop on `[5]` releases the trailing
index-cell strictly before the remove update is enqueued (its trace is the
release followed by the enqueue), not after it. -/
theorem seq_index_cells_counterexample :
    (PA.splice ⟨[1, 2], Finset.range 2⟩ 1 (some 5) []).1.cells.card
      ≠ (PA.splice ⟨[1, 2], Finset.range 2⟩ 1 (some 5) []).1.arr.length ∧
    (PA.pop ⟨[5], Finset.range 1⟩).2.1
      = [.deleteCell 0, .enqueue .remove 0 [5] []] := by
  constructor
  · decide
  · decide

/-- Witness for the amended C5 at a concrete state and in-range splice
arguments. -/
theorem seq_index_cells_track_length_witness :
    ((PASt.mk [1, 2] (Finset.range 2)).cells
        = Finset.range (PASt.mk [1, 2] (Finset.range 2)).arr.length ∧
      1 ≤ (PASt.mk [1, 2] (Finset.range 2)).arr.length ∧
      1 ≤ (PASt.mk [1, 2] (Finset.range 2)).arr.length - 1) ∧
    ((PA.splice (PASt.mk [1, 2] (Finset.range 2)) (1 : Int) (some (1 : Int)) [9]).1.cells
        = Finset.range
          (PA.splice (PASt.mk [1, 2] (Finset.range 2)) (1 : Int) (some (1 : Int)) [9]).1.arr.length ∧
      bookkeepingBeforeEnqueue
        (PA.splice (PASt.mk [1, 2] (Finset.range 2)) (1 : Int) (some (1 : Int)) [9]).2.1 = true) :=
  ⟨⟨by decide, by decide, by decide⟩,
    (seq_index_cells_track_length (PASt.mk [1, 2] (Finset.range 2)) [7] [9] 1 1
      (by decide) (by decide) (by decide)).2.2.2.2⟩

/- ## Diff-based refresh (updateByDiff) -/

/-- Longest common subsequence of two snapshots, by the classical recursion:
matching heads are kept, otherwise the longer of the two one-sided
alternatives wins.  Its elements are the positions a minimal insert/delete
edit script keeps. -/
def lcs : List Int → List Int → List Int
  | [], _ => []
  | _ :: _, [] => []
  | a :: as, b :: bs =>
    if a = b then a :: lcs as bs
    else if (lcs as (b :: bs)).length < (lcs (a :: as) bs).length then lcs (a :: as) bs
    else lcs as (b :: bs)
termination_by xs ys => xs.length + ys.length

/-- Split of a list around the first occurrence of `x`: the part before it and
the part after it. -/
def splitFirst (x : Int) : List Int → List Int × List Int
  | [] => ([], [])
  | y :: ys =>
    if y = x then ([], ys)
    else (y :: (splitFirst x ys).1, (splitFirst x ys).2)

/-- Regions of the sequence alignment: walking old and new along the kept
common subsequence `c`, every maximal run of non-kept positions between two
kept elements becomes one region `(start index in old, removed run, inserted
run)`; runs where both sides are empty produce no region. -/
def alignRegions : Nat → List Int → List Int → List Int → List (Nat × List Int × List Int)
  | i, old, new, [] => if old = [] ∧ new = [] then [] else [(i, old, new)]
  | i, old, new, x :: cs =>
    let so := splitFirst x old
    let sn := splitFirst x new
    if so.1 = [] ∧ sn.1 = [] then alignRegions (i + 1) so.2 sn.2 cs
    else (i, so.1, sn.1) :: alignRegions (i + so.1.length + 1) so.2 sn.2 cs

/-- Modelled from the spec: `P.U.diff` (the utils are not under src/).  Spec
4.4: the diff of an old and a new backing snapshot is the minimal set of
contiguous splice regions transforming old into new -- a sequence alignment /
edit-script computation, not a naive full replace: the kept elements are a
longest common subsequence of the two snapshots and every maximal contiguous
run of non-kept positions yields one region. -/
def diffRegions (o n : List Int) : List (Nat × List Int × List Int) :=
  alignRegions 0 o n (lcs o n)

/-- ProAct.Array.prototype.updateByDiff (src/unnamed/part_000 lines 94-104):
one updateSplice -- hence at most one enqueued splice event -- per region of
the diff of the old snapshot against the current backing array. -/
def updateByDiff (oldArr newArr : List Int) : List PAction :=
  (diffRegions oldArr newArr).foldr
    (fun r acc => updateSpliceActions (r.1 : Int) r.2.1 r.2.2 ++ acc) []

/-- Replay of a region script against the old snapshot: each region
`(j, o, n)` replaces the `o.length` elements at absolute old-index `j` by `n`;
`ofs` is the absolute index of the current suffix's first element. -/
def applyScript : Nat → List Int → List (Nat × List Int × List Int) → List Int
  | _, cur, [] => cur
  | ofs, cur, (j, o, n) :: rest =>
    cur.take (j - ofs) ++ n ++ applyScript (j + o.length) (cur.drop ((j - ofs) + o.length)) rest

/-- Regions are in bounds and strictly separated: each starts no earlier than
the given lower bound, and the next one starts beyond the previous region's
end plus one kept element. -/
def regionsSeparated : Nat → List (Nat × List Int × List Int) → Prop
  | _, [] => True
  | lo, (j, o, _) :: rest => lo ≤ j ∧ regionsSeparated (j + o.length + 1) rest

/-- Total count of removed elements over a region script. -/
def sumRemoved (rs : List (Nat × List Int × List Int)) : Nat :=
  (rs.map (fun r => r.2.1.length)).sum

/-- Total count of inserted elements over a region script. -/
def sumInserted (rs : List (Nat × List Int × List Int)) : Nat :=
  (rs.map (fun r => r.2.2.length)).sum

lemma lcs_cons_eq (a : Int) (as bs : List Int) :
    lcs (a :: as) (a :: bs) = a :: lcs as bs := by
  simp [lcs]

lemma lcs_cons_neq (a b : Int) (as bs : List Int) (hab : a ≠ b) :
    lcs (a :: as) (b :: bs)
      = if (lcs as (b :: bs)).length < (lcs (a :: as) bs).length then lcs (a :: as) bs
        else lcs as (b :: bs) := by
  simp [lcs, hab]

lemma lcs_sublist_left : ∀ xs ys : List Int, (lcs xs ys).Sublist xs := by
  intro xs
  induction xs with
  | nil => intro ys; simp [lcs]
  | cons a as ihx =>
    intro ys
    induction ys with
    | nil => simp [lcs]
    | cons b bs ihy =>
      by_cases hab : a = b
      · subst hab
        rw [lcs_cons_eq]
        exact (ihx bs).cons₂ a
      · rw [lcs_cons_neq a b as bs hab]
        by_cases hlt : (lcs as (b :: bs)).length < (lcs (a :: as) bs).length
        · simpa [hlt] using ihy
        · simpa [hlt] using (ihx (b :: bs)).cons a

lemma lcs_sublist_right : ∀ xs ys : List Int, (lcs xs ys).Sublist ys := by
  intro xs
  induction xs with
  | nil => intro ys; simp [lcs]
  | cons a as ihx =>
    intro ys
    induction ys with
    | nil => simp [lcs]
    | cons b bs ihy =>
      by_cases hab : a = b
      · subst hab
        rw [lcs_cons_eq]
        exact (ihx bs).cons₂ a
      · rw [lcs_cons_neq a b as bs hab]
        by_cases hlt : (lcs as (b :: bs)).length < (lcs (a :: as) bs).length
        · simpa [hlt] using ihy.cons b
        · simpa [hlt] using ihx (b :: bs)

lemma lcs_maximal : ∀ xs ys w : List Int, w.Sublist xs → w.Sublist ys →
    w.length ≤ (lcs xs ys).length := by
  intro xs
  induction xs with
  | nil =>
    intro ys w h1 _
    rw [List.sublist_nil.mp h1]
    simp
  | cons a as ihx =>
    intro ys
    induction ys with
    | nil =>
      intro w _ h2
      rw [List.sublist_nil.mp h2]
      simp
    | cons b bs ihy =>
      intro w h1 h2
      by_cases hab : a = b
      · subst hab
        rw [lcs_cons_eq, List.length_cons]
        rcases List.sublist_cons_iff.mp h1 with h1' | ⟨r, rfl, h1'⟩
        · rcases List.sublist_cons_iff.mp h2 with h2' | ⟨r, rfl, h2'⟩
          · have := ihx bs w h1' h2'
            omega
          · have hr : r.Sublist as := List.sublist_of_cons_sublist h1'
            have := ihx bs r hr h2'
            rw [List.length_cons]
            omega
        · rcases List.sublist_cons_iff.mp h2 with h2' | ⟨r', heq, h2'⟩
          · have hr : r.Sublist bs := List.sublist_of_cons_sublist h2'
            have := ihx bs r h1' hr
            rw [List.length_cons]
            omega
          · have hrr : r' = r := by
              injection heq with _ h
              exact h.symm
            subst hrr
            have := ihx bs r' h1' h2'
            rw [List.length_cons]
            omega
      · have hw : w.length ≤ (lcs as (b :: bs)).length ∨
            w.length ≤ (lcs (a :: as) bs).length := by
          rcases List.sublist_cons_iff.mp h1 with h1' | ⟨r, rfl, h1'⟩
          · exact Or.inl (ihx (b :: bs) w h1' h2)
          · rcases List.sublist_cons_iff.mp h2 with h2' | ⟨r', heq, h2'⟩
            · exact Or.inr (ihy (a :: r) h1 h2')
            · have hpair : a = b ∧ r = r' := by simpa using heq
              exact absurd hpair.1 hab
        rw [lcs_cons_neq a b as bs hab]
        by_cases hlt : (lcs as (b :: bs)).length < (lcs (a :: as) bs).length
        · rw [if_pos hlt]
          omega
        · rw [if_neg hlt]
          omega

lemma splitFirst_append (x : Int) (l : List Int) (hx : x ∈ l) :
    (splitFirst x l).1 ++ x :: (splitFirst x l).2 = l := by
  induction l with
  | nil => cases hx
  | cons y ys ih =>
    by_cases hy : y = x
    · simp [splitFirst, hy]
    · have hx' : x ∈ ys := by
        rcases List.mem_cons.mp hx with h | h
        · exact absurd h.symm hy
        · exact h
      simp [splitFirst, hy, ih hx']

lemma splitFirst_tail_sublist (x : Int) (cs l : List Int)
    (h : (x :: cs).Sublist l) : cs.Sublist (splitFirst x l).2 := by
  induction l with
  | nil => simp at h
  | cons y ys ih =>
    by_cases hy : y = x
    · simp only [splitFirst, if_pos hy]
      rcases List.sublist_cons_iff.mp h with h' | ⟨r, heq, h'⟩
      · exact List.sublist_of_cons_sublist h'
      · have hcs : cs = r := by
          have h2 := heq
          simp at h2
          exact h2.2
        exact hcs ▸ h'
    · simp only [splitFirst, if_neg hy]
      rcases List.sublist_cons_iff.mp h with h' | ⟨r, heq, h'⟩
      · exact ih h'
      · have hxy : x = y := by
          have h2 := heq
          simp at h2
          exact h2.1
        exact absurd hxy.symm hy

lemma alignRegions_head_ge : ∀ (c : List Int) (i : Nat) (old new : List Int)
    (j : Nat) (o n : List Int) (rest : List (Nat × List Int × List Int)),
    alignRegions i old new c = (j, o, n) :: rest → i ≤ j := by
  intro c
  induction c with
  | nil =>
    intro i old new j o n rest h
    by_cases hc : old = [] ∧ new = []
    · simp [alignRegions, hc] at h
    · simp only [alignRegions, if_neg hc] at h
      have : i = j := by
        have := List.head_eq_of_cons_eq h.symm
        injection this.symm with h1
      omega
  | cons x cs ih =>
    intro i old new j o n rest h
    simp only [alignRegions] at h
    by_cases hc : (splitFirst x old).1 = [] ∧ (splitFirst x new).1 = []
    · rw [if_pos hc] at h
      have := ih (i + 1) (splitFirst x old).2 (splitFirst x new).2 j o n rest h
      omega
    · rw [if_neg hc] at h
      have : i = j := by
        have h1 := List.head_eq_of_cons_eq h
        injection h1 with h2
      omega

lemma applyScript_shift (i : Nat) (x : Int) (cur : List Int)
    (rs : List (Nat × List Int × List Int))
    (h : ∀ j o n rest, rs = (j, o, n) :: rest → i + 1 ≤ j) :
    applyScript i (x :: cur) rs = x :: applyScript (i + 1) cur rs := by
  cases rs with
  | nil => rfl
  | cons r rest =>
    obtain ⟨j, o, n⟩ := r
    have hj : i + 1 ≤ j := h j o n rest rfl
    have h1 : j - i = (j - (i + 1)) + 1 := by omega
    simp only [applyScript, h1]
    rw [show j - (i + 1) + 1 + o.length = (j - (i + 1) + o.length) + 1 from by omega]
    simp [List.take_succ_cons, List.drop_succ_cons]

lemma alignRegions_apply : ∀ (c : List Int) (i : Nat) (old new : List Int),
    c.Sublist old → c.Sublist new →
    applyScript i old (alignRegions i old new c) = new := by
  intro c
  induction c with
  | nil =>
    intro i old new _ _
    by_cases hc : old = [] ∧ new = []
    · simp [alignRegions, hc, applyScript, hc.1, hc.2]
    · simp [alignRegions, hc, applyScript]
  | cons x cs ih =>
    intro i old new h1 h2
    have hxold : x ∈ old := h1.subset (List.mem_cons_self x cs)
    have hxnew : x ∈ new := h2.subset (List.mem_cons_self x cs)
    have ho := splitFirst_append x old hxold
    have hn := splitFirst_append x new hxnew
    have hcso : cs.Sublist (splitFirst x old).2 := splitFirst_tail_sublist x cs old h1
    have hcsn : cs.Sublist (splitFirst x new).2 := splitFirst_tail_sublist x cs new h2
    obtain ⟨⟨o1, o2⟩, hspo⟩ : ∃ p, splitFirst x old = p := ⟨_, rfl⟩
    obtain ⟨⟨n1, n2⟩, hspn⟩ : ∃ p, splitFirst x new = p := ⟨_, rfl⟩
    rw [hspo] at ho hcso
    rw [hspn] at hn hcsn
    simp only at ho hn hcso hcsn
    simp only [alignRegions, hspo, hspn]
    by_cases hskip : o1 = [] ∧ n1 = []
    · rw [if_pos hskip]
      obtain ⟨rfl, rfl⟩ := hskip
      simp only [List.nil_append] at ho hn
      subst ho
      subst hn
      rw [applyScript_shift i x o2 _
        (fun j o n rest heq => by
          have := alignRegions_head_ge cs (i + 1) o2 n2 j o n rest heq
          omega)]
      rw [ih (i + 1) o2 n2 hcso hcsn]
    · rw [if_neg hskip]
      subst ho
      subst hn
      simp only [applyScript, Nat.sub_self, List.take_zero, List.nil_append,
        Nat.zero_add]
      rw [List.drop_left]
      rw [applyScript_shift (i + o1.length) x o2 _
        (fun j o n rest heq => by
          have := alignRegions_head_ge cs (i + o1.length + 1) o2 n2 j o n rest heq
          omega)]
      rw [ih (i + o1.length + 1) o2 n2 hcso hcsn]

lemma alignRegions_nonempty : ∀ (c : List Int) (i : Nat) (old new : List Int)
    (j : Nat) (o n : List Int), (j, o, n) ∈ alignRegions i old new c →
    ¬(o = [] ∧ n = []) := by
  intro c
  induction c with
  | nil =>
    intro i old new j o n hm
    by_cases hc : old = [] ∧ new = []
    · simp [alignRegions, hc] at hm
    · simp only [alignRegions, if_neg hc, List.mem_singleton] at hm
      have h2 : o = old ∧ n = new := by
        simp [Prod.ext_iff] at hm
        exact ⟨hm.2.1, hm.2.2⟩
      intro hcon
      exact hc ⟨h2.1 ▸ hcon.1, h2.2 ▸ hcon.2⟩
  | cons x cs ih =>
    intro i old new j o n hm
    simp only [alignRegions] at hm
    by_cases hskip : (splitFirst x old).1 = [] ∧ (splitFirst x new).1 = []
    · rw [if_pos hskip] at hm
      exact ih _ _ _ j o n hm
    · rw [if_neg hskip] at hm
      rcases List.mem_cons.mp hm with hm | hm
      · have h2 : o = (splitFirst x old).1 ∧ n = (splitFirst x new).1 := by
          have := hm
          simp [Prod.ext_iff] at this
          exact ⟨this.2.1, this.2.2⟩
        intro hcon
        exact hskip ⟨h2.1 ▸ hcon.1, h2.2 ▸ hcon.2⟩
      · exact ih _ _ _ j o n hm

lemma regionsSeparated_mono (rs : List (Nat × List Int × List Int))
    (lo lo' : Nat) (h : lo' ≤ lo) (hs : regionsSeparated lo rs) :
    regionsSeparated lo' rs := by
  cases rs with
  | nil => trivial
  | cons r rest =>
    obtain ⟨j, o, n⟩ := r
    exact ⟨le_trans h hs.1, hs.2⟩

lemma alignRegions_separated : ∀ (c : List Int) (i : Nat) (old new : List Int),
    regionsSeparated i (alignRegions i old new c) := by
  intro c
  induction c with
  | nil =>
    intro i old new
    by_cases hc : old = [] ∧ new = []
    · simp [alignRegions, hc, regionsSeparated]
    · simp only [alignRegions, if_neg hc]
      exact ⟨le_refl i, trivial⟩
  | cons x cs ih =>
    intro i old new
    simp only [alignRegions]
    by_cases hskip : (splitFirst x old).1 = [] ∧ (splitFirst x new).1 = []
    · rw [if_pos hskip]
      exact regionsSeparated_mono _ (i + 1) i (by omega)
        (ih (i + 1) (splitFirst x old).2 (splitFirst x new).2)
    · rw [if_neg hskip]
      exact ⟨le_refl i, ih (i + (splitFirst x old).1.length + 1)
        (splitFirst x old).2 (splitFirst x new).2⟩

lemma alignRegions_sums : ∀ (c : List Int) (i : Nat) (old new : List Int),
    c.Sublist old → c.Sublist new →
    sumRemoved (alignRegions i old new c) = old.length - c.length ∧
    sumInserted (alignRegions i old new c) = new.length - c.length := by
  intro c
  induction c with
  | nil =>
    intro i old new _ _
    by_cases hc : old = [] ∧ new = []
    · simp [alignRegions, hc, sumRemoved, sumInserted, hc.1, hc.2]
    · simp [alignRegions, hc, sumRemoved, sumInserted]
  | cons x cs ih =>
    intro i old new h1 h2
    have hxold : x ∈ old := h1.subset (List.mem_cons_self x cs)
    have hxnew : x ∈ new := h2.subset (List.mem_cons_self x cs)
    have ho := splitFirst_append x old hxold
    have hn := splitFirst_append x new hxnew
    have hcso : cs.Sublist (splitFirst x old).2 := splitFirst_tail_sublist x cs old h1
    have hcsn : cs.Sublist (splitFirst x new).2 := splitFirst_tail_sublist x cs new h2
    obtain ⟨⟨o1, o2⟩, hspo⟩ : ∃ p, splitFirst x old = p := ⟨_, rfl⟩
    obtain ⟨⟨n1, n2⟩, hspn⟩ : ∃ p, splitFirst x new = p := ⟨_, rfl⟩
    rw [hspo] at ho hcso
    rw [hspn] at hn hcsn
    simp only at ho hn hcso hcsn
    subst ho
    subst hn
    have hlo : cs.length ≤ o2.length := hcso.length_le
    have hln : cs.length ≤ n2.length := hcsn.length_le
    have hrec := ih (i + o1.length + 1) o2 n2 hcso hcsn
    have hrec' := ih (i + 1) o2 n2 hcso hcsn
    simp only [alignRegions, hspo, hspn]
    by_cases hskip : o1 = [] ∧ n1 = []
    · rw [if_pos hskip]
      obtain ⟨rfl, rfl⟩ := hskip
      constructor
      · rw [hrec'.1]
        simp
      · rw [hrec'.2]
        simp
    · rw [if_neg hskip]
      constructor
      · simp only [sumRemoved, List.map_cons, List.sum_cons] at hrec ⊢
        rw [hrec.1]
        simp [List.length_append]
        omega
      · simp only [sumInserted, List.map_cons, List.sum_cons] at hrec ⊢
        rw [hrec.2]
        simp [List.length_append]
        omega

lemma foldr_updateSplice_eq_map (rs : List (Nat × List Int × List Int))
    (h : ∀ j o n, (j, o, n) ∈ rs → ¬(o = [] ∧ n = [])) :
    rs.foldr (fun r acc => updateSpliceActions (r.1 : Int) r.2.1 r.2.2 ++ acc) []
      = rs.map (fun r => PAction.enqueue .splice (r.1 : Int) r.2.1 r.2.2) := by
  induction rs with
  | nil => rfl
  | cons r rest ih =>
    obtain ⟨j, o, n⟩ := r
    have hr := h j o n (List.mem_cons_self _ _)
    have hrest := ih (fun j o n hm => h j o n (List.mem_cons_of_mem _ hm))
    simp only [List.foldr_cons, List.map_cons]
    rw [hrest,
      show updateSpliceActions (j : Int) o n = [PAction.enqueue .splice (j : Int) o n]
        from by simp [updateSpliceActions, hr]]
    rfl

/-- C6: for every old snapshot and new backing array, updateByDiff emits
exactly one splice event per contiguous changed region of a minimal edit
script: the emitted actions are exactly one enqueue per region of the diff;
replaying the regions against the old snapshot yields the new array;
consecutive regions are strictly separated by kept elements; and the regions'
total removed and inserted counts are `old.length - L` and `new.length - L`,
where `L` is the length of the kept common subsequence, which no common
subsequence exceeds -- so no splice script edits fewer elements.  In
particular for old = [1,2,3,4] and new = [1,9,9,4] exactly one splice event is
emitted, covering indices [1,3): index 1, removed [2,3], inserted [9,9] --
not four separate index updates. -/
theorem updateByDiff_one_splice_per_minimal_region (old new w : List Int)
    (hw1 : w.Sublist old) (hw2 : w.Sublist new) :
    updateByDiff old new
      = (diffRegions old new).map
          (fun r => PAction.enqueue .splice (r.1 : Int) r.2.1 r.2.2) ∧
    (updateByDiff old new).length = (diffRegions old new).length ∧
    applyScript 0 old (diffRegions old new) = new ∧
    regionsSeparated 0 (diffRegions old new) ∧
    sumRemoved (diffRegions old new) = old.length - (lcs old new).length ∧
    sumInserted (diffRegions old new) = new.length - (lcs old new).length ∧
    w.length ≤ (lcs old new).length ∧
    updateByDiff [1, 2, 3, 4] [1, 9, 9, 4] = [.enqueue .splice 1 [2, 3] [9, 9]] := by
  have hmap : updateByDiff old new
      = (diffRegions old new).map
          (fun r => PAction.enqueue .splice (r.1 : Int) r.2.1 r.2.2) :=
    foldr_updateSplice_eq_map (diffRegions old new)
      (fun j o n hm => alignRegions_nonempty (lcs old new) 0 old new j o n hm)
  have hsums := alignRegions_sums (lcs old new) 0 old new
    (lcs_sublist_left old new) (lcs_sublist_right old new)
  refine ⟨hmap, ?_,
    alignRegions_apply (lcs old new) 0 old new
      (lcs_sublist_left old new) (lcs_sublist_right old new),
    alignRegions_separated (lcs old new) 0 old new,
    hsums.1, hsums.2,
    lcs_maximal old new w hw1 hw2, ?_⟩
  · rw [hmap, List.length_map]
  · simp [updateByDiff, diffRegions, lcs, alignRegions, splitFirst,
      updateSpliceActions]

/-- Witness for C6 at the claim's concrete refresh, with the common
subsequence [1, 4] as the competing kept part. -/
theorem updateByDiff_one_splice_per_minimal_region_witness :
    (([1, 4] : List Int).Sublist [1, 2, 3, 4] ∧
      ([1, 4] : List Int).Sublist [1, 9, 9, 4]) ∧
    updateByDiff [1, 2, 3, 4] [1, 9, 9, 4]
      = (diffRegions [1, 2, 3, 4] [1, 9, 9, 4]).map
          (fun r => PAction.enqueue .splice (r.1 : Int) r.2.1 r.2.2) ∧
    (updateByDiff [1, 2, 3, 4] [1, 9, 9, 4]).length
      = (diffRegions [1, 2, 3, 4] [1, 9, 9, 4]).length ∧
    applyScript 0 [1, 2, 3, 4] (diffRegions [1, 2, 3, 4] [1, 9, 9, 4])
      = [1, 9, 9, 4] ∧
    regionsSeparated 0 (diffRegions [1, 2, 3, 4] [1, 9, 9, 4]) ∧
    sumRemoved (diffRegions [1, 2, 3, 4] [1, 9, 9, 4])
      = ([1, 2, 3, 4] : List Int).length - (lcs [1, 2, 3, 4] [1, 9, 9, 4]).length ∧
    sumInserted (diffRegions [1, 2, 3, 4] [1, 9, 9, 4])
      = ([1, 9, 9, 4] : List Int).length - (lcs [1, 2, 3, 4] [1, 9, 9, 4]).length ∧
    ([1, 4] : List Int).length ≤ (lcs [1, 2, 3, 4] [1, 9, 9, 4]).length ∧
    updateByDiff [1, 2, 3, 4] [1, 9, 9, 4] = [.enqueue .splice 1 [2, 3] [9, 9]] :=
  ⟨⟨by decide, by decide⟩,
    updateByDiff_one_splice_per_minimal_region [1, 2, 3, 4] [1, 9, 9, 4] [1, 4]
      (by decide) (by decide)⟩

/- ## Stream error path -/

/-- Result of running a transform: a produced value, the BadValue sentinel, or
a thrown exception carrying an error id. -/
inductive TResult
  | ok : Val → TResult
  | bad
  | thrown : Nat → TResult
deriving DecidableEq, Repr

/-- Modelled from the spec: `ProAct.Observable.transform` (the Observable base
is not under src/), as invoked inside go's try block.  Spec 4.2: the
transforms apply in order, the BadValue sentinel short-circuits the pipeline,
and an exception thrown by a transform propagates to the caller, where go
catches it. -/
def runTransforms : List (Val → TResult) → Val → TResult
  | [], v => .ok v
  | t :: ts, v =>
    match t v with
    | .ok v' => runTransforms ts v'
    | .bad => .bad
    | .thrown e => .thrown e

/-- One deferred delivery: a value event to a regular listener, or an error to
an error listener. -/
inductive Delivery
  | toRegular : Nat → Val → Delivery
  | toError : Nat → Nat → Delivery
deriving DecidableEq, Repr

/-- State of a ProAct.Stream: regular listeners, error listeners and the
transform pipeline. -/
structure StreamSt where
  listeners : List Nat
  errListeners : List Nat
  transforms : List (Val → TResult)

/-- Modelled from the spec: `ProAct.Observable.update` over the regular
listeners (the Observable base is not under src/).  Spec 4.2: publishing
defers one invocation per subscribed listener. -/
def updateS (s : StreamSt) (v : Val) : List Delivery :=
  s.listeners.map (fun l => .toRegular l v)

/-- ProAct.Stream.prototype.triggerErr (stream.js lines 131-133):
`this.update(err, this.errListeners)` -- the error is deferred to the error
listeners only, through the same delivery mechanism. -/
def triggerErr (s : StreamSt) (err : Nat) : List Delivery :=
  s.errListeners.map (fun l => .toError l err)

/-- ProAct.Stream.prototype.go (stream.js lines 134-151): with transformations
on, the pipeline runs inside try/catch -- a thrown error is routed to
`triggerErr` and the method returns without a regular update; a BadValue
result returns with no update at all; otherwise the regular listeners are
updated with the transformed event. -/
def go (s : StreamSt) (event : Val) (useTransformations : Bool) : List Delivery :=
  if useTransformations then
    match runTransforms s.transforms event with
    | .thrown e => triggerErr s e
    | .bad => []
    | .ok ev => updateS s ev
  else updateS s event

/-- ProAct.Stream.prototype.trigger (stream.js lines 125-130): defaults
`useTransformations` to true and delegates to go. -/
def trigger (s : StreamSt) (event : Val) (useTransformations : Option Bool) :
    List Delivery :=
  go s event (useTransformations.getD true)

/-- True for deliveries addressed to a regular value listener. -/
def isRegularDelivery : Delivery → Bool
  | .toRegular _ _ => true
  | .toError _ _ => false

lemma filter_regular_map_toError (ls : List Nat) (e : Nat) :
    (ls.map (fun l => Delivery.toError l e)).filter isRegularDelivery = [] := by
  induction ls with
  | nil => rfl
  | cons x xs ih => simp [List.filter_cons, isRegularDelivery, ih]

/-- C8: when the transform pipeline throws during a trigger, the deliveries
are exactly one error delivery per error listener (the same list an explicit
triggerErr produces) and no regular listener receives anything; and
triggerErr always delivers only to the error listeners, never to regular
ones. -/
theorem stream_errors_only_to_error_listeners (s : StreamSt) (ev : Val)
    (e err2 : Nat) (hth : runTransforms s.transforms ev = .thrown e) :
    trigger s ev none = s.errListeners.map (fun l => Delivery.toError l e) ∧
    trigger s ev none = triggerErr s e ∧
    (trigger s ev none).filter isRegularDelivery = [] ∧
    triggerErr s err2 = s.errListeners.map (fun l => Delivery.toError l err2) ∧
    (triggerErr s err2).filter isRegularDelivery = [] := by
  have hgo : trigger s ev none = triggerErr s e := by
    simp [trigger, go, hth]
  refine ⟨?_, hgo, ?_, rfl, filter_regular_map_toError _ _⟩
  · rw [hgo]; rfl
  · rw [hgo]
    exact filter_regular_map_toError _ _

/-- Witness for C8: a stream with one regular and one error listener whose
pipeline throws error 9 on any input. -/
theorem stream_errors_only_to_error_listeners_witness :
    (runTransforms (StreamSt.mk [1] [2] [fun _ => TResult.thrown 9]).transforms
        (Val.vnum 0) = .thrown 9) ∧
    trigger (StreamSt.mk [1] [2] [fun _ => TResult.thrown 9]) (Val.vnum 0) none
      = [Delivery.toError 2 9] ∧
    (trigger (StreamSt.mk [1] [2] [fun _ => TResult.thrown 9]) (Val.vnum 0) none).filter
        isRegularDelivery = [] ∧
    triggerErr (StreamSt.mk [1] [2] [fun _ => TResult.thrown 9]) 7
      = [Delivery.toError 2 7] :=
  have hmain := stream_errors_only_to_error_listeners
    (StreamSt.mk [1] [2] [fun _ => TResult.thrown 9]) (Val.vnum 0) 9 7 rfl
  ⟨rfl, hmain.1, hmain.2.2.1, hmain.2.2.2.1⟩
